import Mathlib

/-!
# Verification of the bizclaw inference engine core

Shallow embedding of the `bizclaw-brain` crate (quantization kernels,
sampler, tokenizer, model-parameter extraction, RoPE) over `Nat` bytes and
exact rational arithmetic, together with theorems settling the frozen
claims about the natural-language specification.

Floating-point values (`f16`/`f32` fields decoded from block bytes, logits,
probabilities) are modelled as exact rationals; the bit-level extraction of
quants, scales and mins is modelled exactly as the source performs it.
-/

namespace Bizclaw

/-- Decode the 16 bits of an IEEE-754 binary16 value into an exact rational.
Sign, exponent and mantissa are split exactly as `half::f16::to_f32` does;
the exponent-31 (infinity/NaN) case has no rational value and is mapped to
0 — no theorem below depends on that case. -/
def f16ToRat (bits : Nat) : ℚ :=
  let sign : ℚ := if bits / 32768 % 2 = 1 then -1 else 1
  let e := bits / 1024 % 32
  let m := bits % 1024
  if e = 0 then sign * (m : ℚ) / 16777216
  else if e = 31 then 0
  else sign * ((1024 + m : ℕ) : ℚ) * 2 ^ e / 33554432

/-- `read_f16`: read a little-endian f16 at `offset` from a byte buffer
(out-of-range bytes read as 0; every use below is in bounds). -/
def read_f16 (data : List ℕ) (offset : ℕ) : ℚ :=
  f16ToRat (data.getD offset 0 + 256 * data.getD (offset + 1) 0)

/-- Decode 4 little-endian bytes as an IEEE-754 binary32 value, as an exact
rational (exponent-255 mapped to 0, as in `f16ToRat`). -/
def f32FromLeBytes (b0 b1 b2 b3 : ℕ) : ℚ :=
  let bits := b0 + 256 * b1 + 65536 * b2 + 16777216 * b3
  let sign : ℚ := if bits / 2147483648 % 2 = 1 then -1 else 1
  let e := bits / 8388608 % 256
  let m := bits % 8388608
  if e = 0 then sign * (m : ℚ) / 713623846352979940529142984724747568191373312
  else if e = 255 then 0
  else sign * ((8388608 + m : ℕ) : ℚ) * 2 ^ e /
    1427247692705959881058285969449495136382746624

-- ── Q4_0: 18 bytes → 32 f32 ───────────────────────────────────

/-- `dequantize_q4_0` (18 bytes → 32 values): f16 scale then 16 bytes of
4-bit quants, low nibble at even positions, biased by 8. -/
def dequantize_q4_0 (block : List ℕ) : List ℚ :=
  let scale := read_f16 block 0
  List.ofFn (n := 32) fun idx =>
    let i := idx.val / 2
    let byte := block.getD (2 + i) 0
    if idx.val % 2 = 0 then ((byte &&& 0x0F : ℕ) - 8 : ℤ) * scale
    else (((byte >>> 4) &&& 0x0F : ℕ) - 8 : ℤ) * scale

-- ── Q8_0: 34 bytes → 32 f32 ───────────────────────────────────

/-- Reinterpret a byte as a signed 8-bit integer (`as i8`). -/
def toI8 (b : ℕ) : ℤ := if b % 256 < 128 then (b % 256 : ℤ) else (b % 256 : ℤ) - 256

/-- `dequantize_q8_0` (34 bytes → 32 values): f16 scale then 32 signed bytes. -/
def dequantize_q8_0 (block : List ℕ) : List ℚ :=
  let scale := read_f16 block 0
  List.ofFn (n := 32) fun idx =>
    (toI8 (block.getD (2 + idx.val) 0) : ℚ) * scale

-- ── Q2_K: 84 bytes → 256 f32 ──────────────────────────────────

/-- `dequantize_q2_k` (84 bytes → 256 values): 16 scale/min bytes, 64 quant
bytes (2-bit quants), then f16 `d` and `dmin`. -/
def dequantize_q2_k (block : List ℕ) : List ℚ :=
  let d := read_f16 block 80
  let dmin := read_f16 block 82
  List.ofFn (n := 256) fun idx =>
    let sub := idx.val / 16
    let j := idx.val % 16
    let sc := ((block.getD sub 0) &&& 0x0F : ℕ)
    let mn := (((block.getD sub 0) >>> 4) &&& 0x0F : ℕ)
    let scale := d * sc
    let min := dmin * mn
    let byte_idx := sub * 4 + j / 4
    let bit_shift := (j % 4) * 2
    let q := (((block.getD (16 + byte_idx) 0) >>> bit_shift) &&& 0x03 : ℕ)
    scale * q - min

-- ── Q3_K: 110 bytes → 256 f32 ─────────────────────────────────

/-- The 16 six-bit sub-block scales of a Q3_K block: low 4 bits from the
first 8 scale bytes, high 2 bits from the last 4, biased by 32.  The i8
arithmetic of the source never wraps (values stay in [0,63] before the
bias), so plain integers are exact. -/
def q3kScale (block : List ℕ) (i : ℕ) : ℤ :=
  let raw := fun k => block.getD (96 + k) 0
  let lo : ℕ := if i < 8 then raw i &&& 0x0F else (raw (i - 8) >>> 4) &&& 0x0F
  let hi : ℕ :=
    if i < 4 then (raw (8 + i)) &&& 0x03
    else if i < 8 then (raw (8 + (i - 4)) >>> 2) &&& 0x03
    else if i < 12 then (raw (8 + (i - 8)) >>> 4) &&& 0x03
    else (raw (8 + (i - 12)) >>> 6) &&& 0x03
  ((lo ||| (hi <<< 4) : ℕ) : ℤ) - 32

/-- `dequantize_q3_k` (110 bytes → 256 values): 32 high-bit bytes, 64 quant
bytes, 12 packed scale bytes, f16 `d`. -/
def dequantize_q3_k (block : List ℕ) : List ℚ :=
  let d := read_f16 block 108
  List.ofFn (n := 256) fun idx =>
    let sub := idx.val / 16
    let sc := (q3kScale block sub : ℚ) * d
    let byte_idx := idx.val / 4
    let bit_shift := (idx.val % 4) * 2
    let lo2 := (((block.getD (32 + byte_idx) 0) >>> bit_shift) &&& 0x03 : ℕ)
    let hi1 := (((block.getD (idx.val / 8) 0) >>> (idx.val % 8)) &&& 1 : ℕ)
    let q := (lo2 ||| (hi1 <<< 2) : ℕ)
    sc * ((q : ℚ) - 4)

-- ── Q4_K: 144 bytes → 256 f32 ─────────────────────────────────

/-- The eight 6-bit sub-block scales of a Q4_K/Q5_K block, decoded from the
12 packed scale bytes exactly as the source's second (`scales`) decode. -/
def q4kScales (raw : ℕ → ℕ) (s : ℕ) : ℕ :=
  if s < 4 then raw (2 * s) &&& 63
  else (raw (2 * (s - 4)) >>> 6) ||| ((raw (8 + (s - 4)) &&& 0x0F) <<< 2)

/-- The eight 6-bit sub-block mins of a Q4_K/Q5_K block. -/
def q4kMins (raw : ℕ → ℕ) (s : ℕ) : ℕ :=
  if s < 4 then raw (2 * s + 1) &&& 63
  else (raw (2 * (s - 4) + 1) >>> 6) ||| ((raw (8 + (s - 4)) >>> 4) <<< 2)

/-- `dequantize_q4_k` (144 bytes → 256 values): f16 `d`, f16 `dmin`, 12
packed scale bytes, 128 quant bytes of 4-bit nibbles. -/
def dequantize_q4_k (block : List ℕ) : List ℚ :=
  let d := read_f16 block 0
  let dmin := read_f16 block 2
  let raw := fun k => block.getD (4 + k) 0
  List.ofFn (n := 256) fun idx =>
    let sub := idx.val / 32
    let j := idx.val % 32
    let scale := d * (q4kScales raw sub : ℚ)
    let min := dmin * (q4kMins raw sub : ℚ)
    let byte := block.getD (16 + (sub * 16 + j / 2)) 0
    let q : ℕ := if j % 2 = 0 then byte &&& 0x0F else (byte >>> 4) &&& 0x0F
    scale * q - min

-- ── Q5_K: 176 bytes → 256 f32 ─────────────────────────────────

/-- `dequantize_q5_k` (176 bytes → 256 values): scale/min unpack as Q4_K,
plus a 32-byte high-bit plane at offset 16; quants at offset 48. -/
def dequantize_q5_k (block : List ℕ) : List ℚ :=
  let d := read_f16 block 0
  let dmin := read_f16 block 2
  let raw := fun k => block.getD (4 + k) 0
  List.ofFn (n := 256) fun idx =>
    let sub := idx.val / 32
    let j := idx.val % 32
    let scale := d * (q4kScales raw sub : ℚ)
    let min := dmin * (q4kMins raw sub : ℚ)
    let byte := block.getD (48 + (sub * 16 + j / 2)) 0
    let lo4 : ℕ := if j % 2 = 0 then byte &&& 0x0F else (byte >>> 4) &&& 0x0F
    let hi1 := (((block.getD (16 + idx.val / 8) 0) >>> (idx.val % 8)) &&& 1 : ℕ)
    let q := (lo4 ||| (hi1 <<< 4) : ℕ)
    scale * q - min

-- ── Q6_K: 210 bytes → 256 f32 ─────────────────────────────────

/-- `dequantize_q6_k` (210 bytes → 256 values): 128 low-nibble bytes, 64
high-bit bytes, 16 signed scale bytes, f16 `d`; quants centered at 32. -/
def dequantize_q6_k (block : List ℕ) : List ℚ :=
  let d := read_f16 block 208
  List.ofFn (n := 256) fun idx =>
    let sub := idx.val / 16
    let sc := (toI8 (block.getD (192 + sub) 0) : ℚ) * d
    let ql_byte := block.getD (idx.val / 2) 0
    let lo4 : ℕ := if idx.val % 2 = 0 then ql_byte &&& 0x0F else (ql_byte >>> 4) &&& 0x0F
    let hi2 := (((block.getD (128 + idx.val / 4) 0) >>> ((idx.val % 4) * 2)) &&& 0x03 : ℕ)
    let q := (lo4 ||| (hi2 <<< 4) : ℕ)
    sc * ((q : ℚ) - 32)

-- ── Row dispatcher ─────────────────────────────────────────────

/-- Modelled from the spec: the GGML block-type tags of `crate::gguf`
(`gguf.rs` itself is not part of the analysed sources).  The spec lists the
nine recognized tags F32, F16, Q4_0, Q8_0, Q2_K–Q6_K and says any other
tag is unsupported; the extra constructors are other ggml tags the
repository's tests mention (`IQ2XXS`, `IQ4NL`) plus the remaining common
ggml tags. -/
inductive GgmlType where
  | F32 | F16 | Q4_0 | Q8_0 | Q2K | Q3K | Q4K | Q5K | Q6K
  | Q4_1 | Q5_0 | Q5_1 | Q8_1 | Q8K
  | IQ2XXS | IQ2XS | IQ3XXS | IQ1S | IQ4NL | IQ3S | IQ2S | IQ4XS
  deriving DecidableEq

/-- `is_type_supported`: the closed set handled by the backend. -/
def is_type_supported : GgmlType → Bool
  | .F32 | .F16 | .Q4_0 | .Q8_0 | .Q2K | .Q3K | .Q4K | .Q5K | .Q6K => true
  | _ => false

/-- Elements per block for each quantized type (source constants; the spec
gives F32/F16 "one element per block", and the tag is irrelevant for
unsupported types). -/
def block_size : GgmlType → ℕ
  | .Q4_0 | .Q8_0 => 32
  | .Q2K | .Q3K | .Q4K | .Q5K | .Q6K => 256
  | _ => 1

/-- Bytes per block for each quantized type (source constants). -/
def type_size : GgmlType → ℕ
  | .Q4_0 => 18
  | .Q8_0 => 34
  | .Q2K => 84
  | .Q3K => 110
  | .Q4K => 144
  | .Q5K => 176
  | .Q6K => 210
  | .F32 => 4
  | .F16 => 2
  | _ => 1

/-- The quantized block formats dispatched through `dispatch_blocks`. -/
def blockQuant : GgmlType → Bool
  | .Q4_0 | .Q8_0 | .Q2K | .Q3K | .Q4K | .Q5K | .Q6K => true
  | _ => false

/-- The error returned by `dequantize_row` (the source wraps a message in
`BizClawError::Brain`; only the unsupported-type case produces it). -/
inductive RowError where
  | unsupportedQuant (t : GgmlType)
  deriving DecidableEq

/-- Overlay `vals` onto `out` starting at position `start`, modelling the
in-place writes `output[start + k] = vals[k]`.  This equals the Rust
behaviour whenever `start + vals.length ≤ out.length` (otherwise Rust
panics; every theorem below supplies that bound). -/
def writeSeg (out : List ℚ) (start : ℕ) (vals : List ℚ) : List ℚ :=
  out.take start ++ vals ++ out.drop (start + vals.length)

/-- `dispatch_blocks`: run `dequant_fn` over `n_elements / block_size`
consecutive blocks, writing each block's outputs at `b * block_size`. -/
def dispatch_blocks (data : List ℕ) (output : List ℚ)
    (n_elements block_size type_size : ℕ)
    (dequant_fn : List ℕ → List ℚ) : List ℚ :=
  let n_blocks := n_elements / block_size
  (List.range n_blocks).foldl
    (fun out b => writeSeg out (b * block_size) (dequant_fn (data.drop (b * type_size))))
    output

/-- `dequantize_row`: dequantize a full row, dispatching on the type.
Returns the (possibly updated) output buffer together with an optional
error; the source mutates `output` in place and returns `Result<()>`. -/
def dequantize_row (data : List ℕ) (output : List ℚ) (n_elements : ℕ) :
    GgmlType → Option RowError × List ℚ
  | .F32 =>
      (none, List.ofFn (n := output.length) fun i =>
        if i.val < n_elements ∧ i.val * 4 + 4 ≤ data.length then
          f32FromLeBytes (data.getD (i.val * 4) 0) (data.getD (i.val * 4 + 1) 0)
            (data.getD (i.val * 4 + 2) 0) (data.getD (i.val * 4 + 3) 0)
        else output.getD i.val 0)
  | .F16 =>
      (none, List.ofFn (n := output.length) fun i =>
        if i.val < n_elements ∧ i.val * 2 + 2 ≤ data.length then
          read_f16 data (i.val * 2)
        else output.getD i.val 0)
  | .Q4_0 => (none, dispatch_blocks data output n_elements 32 18 dequantize_q4_0)
  | .Q8_0 => (none, dispatch_blocks data output n_elements 32 34 dequantize_q8_0)
  | .Q2K => (none, dispatch_blocks data output n_elements 256 84 dequantize_q2_k)
  | .Q3K => (none, dispatch_blocks data output n_elements 256 110 dequantize_q3_k)
  | .Q4K => (none, dispatch_blocks data output n_elements 256 144 dequantize_q4_k)
  | .Q5K => (none, dispatch_blocks data output n_elements 256 176 dequantize_q5_k)
  | .Q6K => (none, dispatch_blocks data output n_elements 256 210 dequantize_q6_k)
  | other => (some (.unsupportedQuant other), output)

end Bizclaw

namespace Bizclaw

-- ── Claim C1 : spec-side Q4_K formulas ────────────────────────

/-- Spec formula (claim C1 wording): `scales[i] = raw[2i] & 0x3F` for
`i ∈ [0,4)` and `scales[i+4] = (raw[2i] >> 6) | ((raw[8+i] & 0x0F) << 2)`. -/
def specQ4kScale (raw : ℕ → ℕ) (s : ℕ) : ℕ :=
  if s < 4 then raw (2 * s) &&& 0x3F
  else (raw (2 * (s - 4)) >>> 6) ||| ((raw (8 + (s - 4)) &&& 0x0F) <<< 2)

/-- Spec formula (claim C1 wording): `mins[i] = raw[2i+1] & 0x3F` for
`i ∈ [0,4)` and `mins[i+4] = (raw[2i+1] >> 6) | ((raw[8+i] >> 4) << 2)`. -/
def specQ4kMin (raw : ℕ → ℕ) (s : ℕ) : ℕ :=
  if s < 4 then raw (2 * s + 1) &&& 0x3F
  else (raw (2 * (s - 4) + 1) >>> 6) ||| ((raw (8 + (s - 4)) >>> 4) <<< 2)

-- ── Sampler ──────────────────────────────────────────────────

/-- `SamplerConfig` (floats as exact rationals). -/
structure SamplerConfig where
  temperature : ℚ
  top_p : ℚ
  top_k : ℕ
  repeat_penalty : ℚ
  repeat_last_n : ℕ
  deriving DecidableEq

/-- The repeat-penalty loop: for each of the last
`min last_tokens.length repeat_last_n` tokens, divide a positive logit by
the penalty, multiply a non-positive one. -/
def applyRepeatPenalty (penalty : ℚ) (repeat_last_n : ℕ) (logits : List ℚ)
    (last_tokens : List ℕ) : List ℚ :=
  let n := min last_tokens.length repeat_last_n
  (last_tokens.drop (last_tokens.length - n)).foldl
    (fun lg token_id =>
      if token_id < lg.length then
        if lg.getD token_id 0 > 0 then lg.set token_id (lg.getD token_id 0 / penalty)
        else lg.set token_id (lg.getD token_id 0 * penalty)
      else lg)
    logits

/-- The logits after the (conditional) repeat-penalty pass. -/
def penalized (cfg : SamplerConfig) (logits : List ℚ) (last_tokens : List ℕ) :
    List ℚ :=
  if cfg.repeat_penalty ≠ 1 then
    applyRepeatPenalty cfg.repeat_penalty cfg.repeat_last_n logits last_tokens
  else logits

/-- The logits after the (conditional) temperature pass
(`logit *= 1/temperature` when `temperature > 0` and `≠ 1`). -/
def tempScaled (cfg : SamplerConfig) (l : List ℚ) : List ℚ :=
  if 0 < cfg.temperature ∧ cfg.temperature ≠ 1 then
    l.map (fun x => x * (1 / cfg.temperature))
  else l

/-- The fold of Rust's `Iterator::max_by` over the non-first elements: the
new element replaces the accumulator unless the accumulator compares
strictly greater, so the LAST of equally-maximal elements wins. -/
def amFold (acc : ℕ × ℚ) : List (ℕ × ℚ) → ℕ × ℚ
  | [] => acc
  | p :: ps => amFold (if acc.2 > p.2 then acc else p) ps

/-- `argmax`: index of the maximum value, `0` for an empty slice
(`max_by … .map(|(i, _)| i).unwrap_or(0)`). -/
def argmax (values : List ℚ) : ℕ :=
  match values.enum with
  | [] => 0
  | p :: ps => (amFold p ps).1

/-- Stable insertion step for the descending sort: a new element passes
over exactly the elements it strictly exceeds, so equal keys keep their
original order — the behaviour of Rust's stable `sort_by` with comparator
`b.1.partial_cmp(&a.1)`. -/
def insertDesc (x : ℕ × ℚ) : List (ℕ × ℚ) → List (ℕ × ℚ)
  | [] => [x]
  | y :: ys => if x.2 > y.2 then x :: y :: ys else y :: insertDesc x ys

/-- Stable descending sort by the rational component. -/
def sortDesc : List (ℕ × ℚ) → List (ℕ × ℚ)
  | [] => []
  | x :: xs => insertDesc x (sortDesc xs)

/-- The top-p scan: index (+1) of the first element whose running
cumulative probability exceeds `top_p`, or the full length if none does. -/
def topPCutoff (top_p : ℚ) : ℚ → List (ℕ × ℚ) → ℕ
  | _, [] => 0
  | c, x :: xs => if c + x.2 > top_p then 1 else 1 + topPCutoff top_p (c + x.2) xs

/-- Top-p (nucleus) filtering: truncate at the cutoff, renormalize. -/
def topPFilter (top_p : ℚ) (probs : List (ℕ × ℚ)) : List (ℕ × ℚ) :=
  let kept := probs.take (topPCutoff top_p 0 probs)
  let sum := (kept.map Prod.snd).sum
  kept.map fun p => (p.1, p.2 / sum)

/-- Number of sorted candidates kept by top-k (`k > 0` keeps
`min k len`, `k = 0` keeps everything). -/
def topKCount (cfg : SamplerConfig) (len : ℕ) : ℕ :=
  if 0 < cfg.top_k then min cfg.top_k len else len

/-- The sorted, top-k-truncated `(index, logit)` candidates. -/
def sortedTrunc (cfg : SamplerConfig) (l2 : List ℚ) : List (ℕ × ℚ) :=
  (sortDesc l2.enum).take (topKCount cfg (sortDesc l2.enum).length)

/-- Stable softmax over the kept candidates, with `f32::exp` abstracted as
`fexp` (no claim depends on its values).  `headD (0, 0)` models the
source's `indices[0]`, which is reached only with nonempty logits. -/
def softmaxed (fexp : ℚ → ℚ) (inds : List (ℕ × ℚ)) : List (ℕ × ℚ) :=
  let max_logit := (inds.headD (0, 0)).2
  let probs := inds.map fun p => (p.1, fexp (p.2 - max_logit))
  let sum := (probs.map Prod.snd).sum
  probs.map fun p => (p.1, p.2 / sum)

/-- The candidate distribution the random draw runs over: sorted indices,
top-k truncation, stable softmax, then optional top-p filtering. -/
def sampleCandidates (fexp : ℚ → ℚ) (cfg : SamplerConfig) (logits : List ℚ)
    (last_tokens : List ℕ) : List (ℕ × ℚ) :=
  let l2 := tempScaled cfg (penalized cfg logits last_tokens)
  let probs := softmaxed fexp (sortedTrunc cfg l2)
  if cfg.top_p < 1 then topPFilter cfg.top_p probs else probs

/-- The categorical-draw loop: return the first index whose cumulative
probability exceeds the uniform sample `r`. -/
def drawLoop (r : ℚ) : ℚ → List (ℕ × ℚ) → Option ℕ
  | _, [] => none
  | c, x :: rest => if r < c + x.2 then some x.1 else drawLoop r (c + x.2) rest

/-- The draw plus the source's fallback
(`probs.last().map(|&(idx, _)| idx as u32).unwrap_or(0)`). -/
def drawToken (probs : List (ℕ × ℚ)) (r : ℚ) : ℕ :=
  (drawLoop r 0 probs).getD ((probs.getLast?.map Prod.fst).getD 0)

/-- `Sampler::sample`, with the source's thread-local RNG value passed in
as `r` and `f32::exp` abstracted as `fexp`. -/
def sample (fexp : ℚ → ℚ) (cfg : SamplerConfig) (logits : List ℚ)
    (last_tokens : List ℕ) (r : ℚ) : ℕ :=
  let l2 := tempScaled cfg (penalized cfg logits last_tokens)
  if cfg.temperature ≤ 0 then argmax l2
  else drawToken (sampleCandidates fexp cfg logits last_tokens) r

/-- The configuration used in concrete sampler evaluations: temperature 0
(greedy), defaults elsewhere (`top_p` 0.9, `top_k` 40, penalty 1). -/
def greedyCfg : SamplerConfig :=
  { temperature := 0, top_p := 9/10, top_k := 40, repeat_penalty := 1,
    repeat_last_n := 64 }

-- ── Tokenizer ────────────────────────────────────────────────

/-- UTF-8 bytes of `format!("{}", byte as char)`: the Rust cast maps a byte
to the Unicode scalar of the same value, whose UTF-8 form is TWO bytes for
bytes ≥ 0x80. -/
def byteCharStr (b : ℕ) : List ℕ :=
  if b < 128 then [b] else [192 + b / 64, 128 + b % 64]

/-- Uppercase hexadecimal digit, as an ASCII byte. -/
def hexDigit (n : ℕ) : ℕ := if n < 10 then 48 + n else 55 + n

/-- The bytes of the escape produced by `format!("<0x{:02X}>", byte)`. -/
def hexEscape (b : ℕ) : List ℕ :=
  [60, 48, 120, hexDigit (b / 16), hexDigit (b % 16), 62]

/-- The bytes of the `"<unk>"` fallback string. -/
def unkStr : List ℕ := [60, 117, 110, 107, 62]

/-- `BpeTokenizer`, with token strings as byte lists and scores as
rationals.  `token_to_id` is recomputed from `vocab` (below) exactly as the
constructor builds it. -/
structure BpeTokenizer where
  vocab : List (List ℕ)
  scores : List ℚ
  bos_id : ℕ
  eos_id : ℕ
  pad_id : ℕ

/-- The `token_to_id` map: built by inserting `(vocab[i], i)` for
increasing `i` into a `HashMap`, so for duplicate strings the LAST index
wins. -/
def token_to_id (t : BpeTokenizer) (s : List ℕ) : Option ℕ :=
  ((t.vocab.enum.filter fun p => p.2 == s).getLast?).map Prod.fst

/-- `decode_token`: the vocabulary entry, `"<unk>"` when out of range.  No
byte-escape handling — `<0xNN>` entries are returned verbatim. -/
def decode_token (t : BpeTokenizer) (id : ℕ) : List ℕ :=
  t.vocab.getD id unkStr

/-- `decode`: concatenate the decoded tokens (`join("")`). -/
def decode (t : BpeTokenizer) (tokens : List ℕ) : List ℕ :=
  (tokens.map (decode_token t)).flatten

/-- The byte-seeding step of `encode`: the single-char token if present,
else the `<0xNN>` token, else `pad_id`. -/
def seedToken (t : BpeTokenizer) (b : ℕ) : ℕ :=
  match token_to_id t (byteCharStr b) with
  | some id => id
  | none =>
    match token_to_id t (hexEscape b) with
    | some id => id
    | none => t.pad_id

/-- One scan for the best merge: over every adjacent pair, look up the
concatenated strings in the vocabulary; keep the strictly highest score
(first occurrence wins on ties).  Returns `(score, index, id)`. -/
def findBestMerge (t : BpeTokenizer) (tokens : List ℕ) : Option (ℚ × ℕ × ℕ) :=
  (List.range (tokens.length - 1)).foldl
    (fun best i =>
      match token_to_id t
          (decode_token t (tokens.getD i 0) ++ decode_token t (tokens.getD (i + 1) 0)) with
      | none => best
      | some id =>
        let score := t.scores.getD id 0
        match best with
        | none => some (score, i, id)
        | some (bs, bi, bid) =>
          if score > bs then some (score, i, id) else some (bs, bi, bid))
    none

/-- The greedy merge loop of `encode`, fueled: each iteration either stops
(fewer than 2 tokens, or no mergeable pair) or replaces a pair by its
merged token, shrinking the list by one — so fuel equal to the initial
token count makes the fueled loop equal to the source's unbounded loop. -/
def bpeLoop (t : BpeTokenizer) : ℕ → List ℕ → List ℕ
  | 0, tokens => tokens
  | fuel + 1, tokens =>
    if tokens.length < 2 then tokens
    else
      match findBestMerge t tokens with
      | none => tokens
      | some (_, i, id) => bpeLoop t fuel ((tokens.set i id).eraseIdx (i + 1))

/-- `encode`: byte-seed then greedy BPE merges. -/
def encode (t : BpeTokenizer) (text : List ℕ) : List ℕ :=
  if text = [] then []
  else bpeLoop t text.length (text.map (seedToken t))

/-- A tokenizer whose only entry is the byte-escape token `"<0x41>"`. -/
def byteEscTok : BpeTokenizer :=
  { vocab := [hexEscape 65], scores := [], bos_id := 1, eos_id := 2, pad_id := 0 }

/-- A tokenizer whose vocabulary holds the single-byte token `[b]` for
every byte value `b ∈ [0x00, 0xFF]`. -/
def byteVocabTok : BpeTokenizer :=
  { vocab := (List.range 256).map fun b => [b], scores := [],
    bos_id := 1, eos_id := 2, pad_id := 0 }

-- ── GGUF metadata and ModelParams ─────────────────────────────

/-- Modelled from the spec: the metadata value variants of `crate::gguf`
(`gguf.rs` is not among the analysed sources); only the shapes the model
builder distinguishes are distinguished. -/
inductive GgufValue where
  | u32 (v : ℕ)
  | f32 (v : ℚ)
  | str (s : String)
  | arr (xs : List GgufValue)
  | other

/-- Modelled from the spec: a parsed GGUF file, reduced to its metadata
key/value store. -/
structure GgufFile where
  metadata : List (String × GgufValue)

/-- Modelled from the spec: metadata lookup (the parser's `HashMap` get). -/
def GgufFile.get (g : GgufFile) (k : String) : Option GgufValue :=
  List.lookup k g.metadata

/-- Modelled from the spec: the `get_u32(key)` helper. -/
def GgufFile.get_u32 (g : GgufFile) (k : String) : Option ℕ :=
  match g.get k with
  | some (.u32 v) => some v
  | _ => none

/-- Modelled from the spec: the `get_f32(key)` helper. -/
def GgufFile.get_f32 (g : GgufFile) (k : String) : Option ℚ :=
  match g.get k with
  | some (.f32 v) => some v
  | _ => none

/-- Modelled from the spec: the architecture string, read from
`general.architecture`. -/
def GgufFile.architecture (g : GgufFile) : Option String :=
  match g.get "general.architecture" with
  | some (.str s) => some s
  | _ => none

/-- `ModelParams` (floats as rationals). -/
structure ModelParams where
  vocab_size : ℕ
  dim : ℕ
  hidden_dim : ℕ
  n_layers : ℕ
  n_heads : ℕ
  n_kv_heads : ℕ
  head_dim : ℕ
  max_seq_len : ℕ
  rope_theta : ℚ
  rms_norm_eps : ℚ
  deriving DecidableEq

/-- `ModelParams::from_gguf`: every key substitutes a TinyLlama default via
`unwrap_or`; `vocab_size` first falls back to the `tokenizer.ggml.tokens`
array length. -/
def ModelParams.from_gguf (g : GgufFile) : ModelParams :=
  let arch := g.architecture.getD "llama"
  let pre := arch ++ "."
  let dim := (g.get_u32 (pre ++ "embedding_length")).getD 2048
  let n_heads := (g.get_u32 (pre ++ "attention.head_count")).getD 32
  let n_kv_heads := (g.get_u32 (pre ++ "attention.head_count_kv")).getD n_heads
  { vocab_size :=
      ((g.get_u32 (pre ++ "vocab_size")).orElse fun _ =>
        match g.get "tokenizer.ggml.tokens" with
        | some (.arr xs) => some xs.length
        | _ => none).getD 32000,
    dim := dim,
    hidden_dim := (g.get_u32 (pre ++ "feed_forward_length")).getD 5632,
    n_layers := (g.get_u32 (pre ++ "block_count")).getD 22,
    n_heads := n_heads,
    n_kv_heads := n_kv_heads,
    head_dim := dim / n_heads,
    max_seq_len := (g.get_u32 (pre ++ "context_length")).getD 2048,
    rope_theta := (g.get_f32 (pre ++ "rope.freq_base")).getD 10000,
    rms_norm_eps :=
      (g.get_f32 (pre ++ "attention.layer_norm_rms_epsilon")).getD (1 / 100000) }

-- ── RoPE ──────────────────────────────────────────────────────

/-- `apply_rope`: in-place pair rotation over the interleaved halves,
modelled as a fold of the two writes per pair index.  `cosf`, `sinf`,
`powf` abstract the `f32` `cos`/`sin`/`powf` (the claims depend only on
`cos 0 = 1` and `sin 0 = 0`). -/
def apply_rope (cosf sinf : ℚ → ℚ) (powf : ℚ → ℚ → ℚ) (vec : List ℚ)
    (pos : ℕ) (head_dim : ℕ) (rope_theta : ℚ) : List ℚ :=
  let half_dim := head_dim / 2
  (List.range half_dim).foldl
    (fun (v : List ℚ) (i : ℕ) =>
      let freq := 1 / powf rope_theta (2 * (i : ℚ) / (head_dim : ℚ))
      let angle := (pos : ℚ) * freq
      let c := cosf angle
      let s := sinf angle
      let x0 := v.getD i 0
      let x1 := v.getD (i + half_dim) 0
      (v.set i (x0 * c - x1 * s)).set (i + half_dim) (x0 * s + x1 * c))
    vec

theorem getD_ofFn {n : ℕ} (f : Fin n → ℚ) (i : ℕ) (h : i < n) :
    (List.ofFn f).getD i 0 = f ⟨i, h⟩ := by
  rw [List.getD_eq_getElem?_getD, List.getElem?_ofFn, List.ofFnNthVal,
    dif_pos h, Option.getD_some]

theorem q4kScales_eq_spec (raw : ℕ → ℕ) (s : ℕ) :
    q4kScales raw s = specQ4kScale raw s := by
  unfold q4kScales specQ4kScale
  split <;> simp

theorem q4kMins_eq_spec (raw : ℕ → ℕ) (s : ℕ) :
    q4kMins raw s = specQ4kMin raw s := by
  unfold q4kMins specQ4kMin
  split <;> simp

/-- **C1.** Q4_K dequantization matches the spec formula exactly: for every
144-byte block, sub-block `s < 8` and in-sub-block position `j < 32`,
output element `s·32 + j` equals `d·scales[s]·q − dmin·mins[s]`, where
`scales`/`mins` follow the claimed packed 6-bit layout over the 12 scale
bytes `raw = block[4..16]` and `q` is the low nibble of `qs[s·16 + j/2]`
for even `j` and the high nibble for odd `j` (`qs = block[16..144]`). -/
theorem dequantize_q4_k_matches_spec (block : List ℕ) (s j : ℕ)
    (hs : s < 8) (hj : j < 32) :
    (dequantize_q4_k block).getD (s * 32 + j) 0 =
      read_f16 block 0 * (specQ4kScale (fun k => block.getD (4 + k) 0) s : ℚ) *
        ((if j % 2 = 0 then block.getD (16 + (s * 16 + j / 2)) 0 &&& 0x0F
          else (block.getD (16 + (s * 16 + j / 2)) 0 >>> 4) &&& 0x0F : ℕ) : ℚ) -
      read_f16 block 2 * (specQ4kMin (fun k => block.getD (4 + k) 0) s : ℚ) := by
  have hidx : s * 32 + j < 256 := by omega
  have hdiv : (s * 32 + j) / 32 = s := by omega
  have hmod : (s * 32 + j) % 32 = j := by omega
  unfold dequantize_q4_k
  rw [getD_ofFn _ _ hidx]
  simp only [hdiv, hmod, q4kScales_eq_spec, q4kMins_eq_spec]

-- ── Claims C5, C6, C10 : row dispatcher behaviour ─────────────

theorem writeSeg_length (out : List ℚ) (start : ℕ) (vals : List ℚ)
    (hle : start + vals.length ≤ out.length) :
    (writeSeg out start vals).length = out.length := by
  unfold writeSeg
  simp only [List.length_append, List.length_take, List.length_drop]
  omega

theorem writeSeg_getD_of_ge (out : List ℚ) (start : ℕ) (vals : List ℚ) (i : ℕ)
    (hi : start + vals.length ≤ i) :
    (writeSeg out start vals).getD i 0 = out.getD i 0 := by
  unfold writeSeg
  have hfront : (out.take start ++ vals).length = min start out.length + vals.length := by
    simp [List.length_take]
  rw [List.getD_eq_getElem?_getD, List.getD_eq_getElem?_getD,
    List.getElem?_append_right (by omega), List.getElem?_drop]
  rcases Nat.le_total start out.length with hle | hge
  · have heq : start + vals.length + (i - (out.take start ++ vals).length) = i := by
      omega
    rw [heq]
  · rw [List.getElem?_eq_none (by omega), List.getElem?_eq_none (by omega)]

theorem dispatch_fold_frame (f : List ℕ → List ℚ) (bs ts : ℕ) (data : List ℕ)
    (hf : ∀ d, (f d).length = bs) :
    ∀ (L : List ℕ) (out : List ℚ), (∀ b ∈ L, b * bs + bs ≤ out.length) →
      (L.foldl (fun o b => writeSeg o (b * bs) (f (data.drop (b * ts)))) out).length
          = out.length ∧
      ∀ i, (∀ b ∈ L, b * bs + bs ≤ i) →
        (L.foldl (fun o b => writeSeg o (b * bs) (f (data.drop (b * ts)))) out).getD i 0
          = out.getD i 0 := by
  intro L
  induction L with
  | nil => intro out _; exact ⟨rfl, fun i _ => rfl⟩
  | cons b L ih =>
    intro out hout
    have hb : b * bs + bs ≤ out.length := hout b (List.mem_cons_self b L)
    have hlen1 : (writeSeg out (b * bs) (f (data.drop (b * ts)))).length = out.length := by
      apply writeSeg_length
      rw [hf]
      exact hb
    have hrest : ∀ b' ∈ L, b' * bs + bs ≤
        (writeSeg out (b * bs) (f (data.drop (b * ts)))).length := by
      intro b' hb'
      rw [hlen1]
      exact hout b' (List.mem_cons_of_mem b hb')
    obtain ⟨ihlen, ihframe⟩ := ih (writeSeg out (b * bs) (f (data.drop (b * ts)))) hrest
    refine ⟨by rw [List.foldl_cons, ihlen, hlen1], ?_⟩
    intro i hi
    rw [List.foldl_cons, ihframe i (fun b' hb' => hi b' (List.mem_cons_of_mem b hb')),
      writeSeg_getD_of_ge]
    rw [hf]
    exact hi b (List.mem_cons_self b L)

theorem dequantize_q4_0_length (d : List ℕ) : (dequantize_q4_0 d).length = 32 :=
  List.length_ofFn _

theorem dequantize_q8_0_length (d : List ℕ) : (dequantize_q8_0 d).length = 32 :=
  List.length_ofFn _

theorem dequantize_q2_k_length (d : List ℕ) : (dequantize_q2_k d).length = 256 :=
  List.length_ofFn _

theorem dequantize_q3_k_length (d : List ℕ) : (dequantize_q3_k d).length = 256 :=
  List.length_ofFn _

theorem dequantize_q4_k_length (d : List ℕ) : (dequantize_q4_k d).length = 256 :=
  List.length_ofFn _

theorem dequantize_q5_k_length (d : List ℕ) : (dequantize_q5_k d).length = 256 :=
  List.length_ofFn _

theorem dequantize_q6_k_length (d : List ℕ) : (dequantize_q6_k d).length = 256 :=
  List.length_ofFn _

theorem dispatch_blocks_frame (data : List ℕ) (output : List ℚ) (n bs ts : ℕ)
    (f : List ℕ → List ℚ) (hf : ∀ d, (f d).length = bs)
    (hout : n ≤ output.length) :
    (dispatch_blocks data output n bs ts f).length = output.length ∧
    ∀ i, n / bs * bs ≤ i →
      (dispatch_blocks data output n bs ts f).getD i 0 = output.getD i 0 := by
  have hmul : n / bs * bs ≤ n := Nat.div_mul_le_self n bs
  have hmem : ∀ b ∈ List.range (n / bs), b * bs + bs ≤ output.length := by
    intro b hb
    have hblt : b < n / bs := List.mem_range.mp hb
    have : (b + 1) * bs ≤ n / bs * bs := Nat.mul_le_mul_right bs hblt
    calc b * bs + bs = (b + 1) * bs := by ring
      _ ≤ n / bs * bs := this
      _ ≤ n := hmul
      _ ≤ output.length := hout
  obtain ⟨hlen, hframe⟩ := dispatch_fold_frame f bs ts data hf (List.range (n / bs)) output hmem
  refine ⟨hlen, fun i hi => hframe i ?_⟩
  intro b hb
  have hblt : b < n / bs := List.mem_range.mp hb
  have : (b + 1) * bs ≤ n / bs * bs := Nat.mul_le_mul_right bs hblt
  calc b * bs + bs = (b + 1) * bs := by ring
    _ ≤ n / bs * bs := this
    _ ≤ i := hi

/-- **C10.** For every quantized block type, `dequantize_row` processes
exactly `⌊n_elements / block_size⌋` full blocks: when `n_elements` is not a
multiple of the block size, the trailing `n_elements mod block_size` output
elements are left unmodified and the call still returns success.  The two
length bounds are the conditions under which the in-place Rust writes and
block reads are in bounds. -/
theorem dequantize_row_trailing_unmodified (t : GgmlType) (data : List ℕ)
    (output : List ℚ) (n : ℕ) (ht : blockQuant t = true)
    (hout : n ≤ output.length)
    (hdata : n / block_size t * type_size t ≤ data.length) :
    (dequantize_row data output n t).1 = none ∧
    (dequantize_row data output n t).2.length = output.length ∧
    ∀ i, n / block_size t * block_size t ≤ i →
      (dequantize_row data output n t).2.getD i 0 = output.getD i 0 := by
  cases t <;> simp only [blockQuant, Bool.false_eq_true] at ht
  case Q4_0 =>
    obtain ⟨h1, h2⟩ := dispatch_blocks_frame data output n 32 18 _ dequantize_q4_0_length hout
    exact ⟨rfl, h1, h2⟩
  case Q8_0 =>
    obtain ⟨h1, h2⟩ := dispatch_blocks_frame data output n 32 34 _ dequantize_q8_0_length hout
    exact ⟨rfl, h1, h2⟩
  case Q2K =>
    obtain ⟨h1, h2⟩ := dispatch_blocks_frame data output n 256 84 _ dequantize_q2_k_length hout
    exact ⟨rfl, h1, h2⟩
  case Q3K =>
    obtain ⟨h1, h2⟩ := dispatch_blocks_frame data output n 256 110 _ dequantize_q3_k_length hout
    exact ⟨rfl, h1, h2⟩
  case Q4K =>
    obtain ⟨h1, h2⟩ := dispatch_blocks_frame data output n 256 144 _ dequantize_q4_k_length hout
    exact ⟨rfl, h1, h2⟩
  case Q5K =>
    obtain ⟨h1, h2⟩ := dispatch_blocks_frame data output n 256 176 _ dequantize_q5_k_length hout
    exact ⟨rfl, h1, h2⟩
  case Q6K =>
    obtain ⟨h1, h2⟩ := dispatch_blocks_frame data output n 256 210 _ dequantize_q6_k_length hout
    exact ⟨rfl, h1, h2⟩

/-- Witness for C10: a Q8_0 row of 33 elements over one 34-byte block
leaves the 33rd output element untouched and succeeds. -/
theorem dequantize_row_trailing_unmodified_witness :
    blockQuant GgmlType.Q8_0 = true ∧
    (dequantize_row (List.replicate 34 0) (List.replicate 33 7) 33 GgmlType.Q8_0).1
      = none ∧
    (dequantize_row (List.replicate 34 0) (List.replicate 33 7) 33 GgmlType.Q8_0).2.getD
      32 0 = (7 : ℚ) := by
  have h := dequantize_row_trailing_unmodified GgmlType.Q8_0 (List.replicate 34 0)
    (List.replicate 33 7) 33 (by decide) (by simp) (by simp [block_size, type_size])
  refine ⟨by decide, h.1, ?_⟩
  have h32 := h.2.2 32 (by simp [block_size])
  rw [h32]
  simp

/-- **C6.** For every GGML type tag outside the supported set,
`dequantize_row` returns an `UnsupportedQuant` error and returns the output
buffer completely unchanged. -/
theorem dequantize_row_unsupported (t : GgmlType) (data : List ℕ)
    (output : List ℚ) (n : ℕ) (ht : is_type_supported t = false) :
    dequantize_row data output n t = (some (RowError.unsupportedQuant t), output) := by
  cases t <;> first
    | rfl
    | simp only [is_type_supported, Bool.true_eq_false] at ht

/-- Witness for C6 at the `IQ2XXS` tag. -/
theorem dequantize_row_unsupported_witness :
    is_type_supported GgmlType.IQ2XXS = false ∧
    dequantize_row [0] [(3 : ℚ)] 1 GgmlType.IQ2XXS
      = (some (RowError.unsupportedQuant GgmlType.IQ2XXS), [(3 : ℚ)]) :=
  ⟨by decide, dequantize_row_unsupported GgmlType.IQ2XXS [0] [(3 : ℚ)] 1 (by decide)⟩

/-- Counterexample to C5 as stated: an F32 row of one element over an empty
byte slice returns success with the buffer untouched — it does not fail. -/
theorem dequantize_row_short_f32_counterexample :
    dequantize_row [] [(5 : ℚ)] 1 GgmlType.F32 = (none, [(5 : ℚ)]) := by
  rfl

/-- **C5 amended.** For F32 and F16, a byte slice too short for all
`n_elements` is not an error: each element whose bytes lie outside the
slice is skipped (its output entry is left unchanged) and the call still
returns success.  `n ≤ output.length` is the bound under which the Rust
in-place writes cannot panic. -/
theorem dequantize_row_f32_f16_short_input (data : List ℕ) (output : List ℚ)
    (n i : ℕ) (hn : n ≤ output.length) (hi : i < output.length) :
    ((dequantize_row data output n GgmlType.F32).1 = none ∧
      (data.length < i * 4 + 4 →
        (dequantize_row data output n GgmlType.F32).2.getD i 0 = output.getD i 0)) ∧
    ((dequantize_row data output n GgmlType.F16).1 = none ∧
      (data.length < i * 2 + 2 →
        (dequantize_row data output n GgmlType.F16).2.getD i 0 = output.getD i 0)) := by
  refine ⟨⟨rfl, fun hshort => ?_⟩, ⟨rfl, fun hshort => ?_⟩⟩
  · have hrow : (dequantize_row data output n GgmlType.F32).2 =
        List.ofFn (n := output.length) (fun k =>
          if k.val < n ∧ k.val * 4 + 4 ≤ data.length then
            f32FromLeBytes (data.getD (k.val * 4) 0) (data.getD (k.val * 4 + 1) 0)
              (data.getD (k.val * 4 + 2) 0) (data.getD (k.val * 4 + 3) 0)
          else output.getD k.val 0) := rfl
    rw [hrow, getD_ofFn _ _ hi,
      if_neg (show ¬(i < n ∧ i * 4 + 4 ≤ data.length) by omega)]
  · have hrow : (dequantize_row data output n GgmlType.F16).2 =
        List.ofFn (n := output.length) (fun k =>
          if k.val < n ∧ k.val * 2 + 2 ≤ data.length then read_f16 data (k.val * 2)
          else output.getD k.val 0) := rfl
    rw [hrow, getD_ofFn _ _ hi,
      if_neg (show ¬(i < n ∧ i * 2 + 2 ≤ data.length) by omega)]

/-- Witness for the amended C5 at a concrete short F32/F16 input. -/
theorem dequantize_row_f32_f16_short_input_witness :
    (1 : ℕ) ≤ 1 ∧ (0 : ℕ) < 1 ∧
    (dequantize_row [] [(5 : ℚ)] 1 GgmlType.F32).1 = none ∧
    (dequantize_row [] [(5 : ℚ)] 1 GgmlType.F32).2.getD 0 0 = (5 : ℚ) := by
  have h := dequantize_row_f32_f16_short_input [] [(5 : ℚ)] 1 0
    (by decide) (by decide)
  exact ⟨by decide, by decide, h.1.1, by rw [h.1.2 (by decide)]; rfl⟩

/-- Witness for C1 at a concrete block and position. -/
theorem dequantize_q4_k_matches_spec_witness :
    (5 : ℕ) < 8 ∧ (7 : ℕ) < 32 ∧
    (dequantize_q4_k (List.range 144)).getD (5 * 32 + 7) 0 =
      read_f16 (List.range 144) 0 *
        (specQ4kScale (fun k => (List.range 144).getD (4 + k) 0) 5 : ℚ) *
        ((((List.range 144).getD (16 + (5 * 16 + 7 / 2)) 0 >>> 4) &&& 0x0F : ℕ) : ℚ) -
      read_f16 (List.range 144) 2 *
        (specQ4kMin (fun k => (List.range 144).getD (4 + k) 0) 5 : ℚ) := by
  refine ⟨by decide, by decide, ?_⟩
  have h := dequantize_q4_k_matches_spec (List.range 144) 5 7
    (by decide) (by decide)
  simpa using h

-- ── Claims C2, C7 : sampler lemmas ────────────────────────────

theorem foldl_length_eq {α : Type} (f : List ℚ → α → List ℚ)
    (hf : ∀ l a, (f l a).length = l.length) :
    ∀ (toks : List α) (l : List ℚ), (toks.foldl f l).length = l.length := by
  intro toks
  induction toks with
  | nil => intro l; rfl
  | cons t ts ih => intro l; rw [List.foldl_cons, ih, hf]

theorem applyRepeatPenalty_length (p : ℚ) (n : ℕ) (logits : List ℚ)
    (toks : List ℕ) :
    (applyRepeatPenalty p n logits toks).length = logits.length := by
  unfold applyRepeatPenalty
  apply foldl_length_eq
  intro lg t
  by_cases h1 : t < lg.length
  · rw [if_pos h1]
    by_cases h2 : lg.getD t 0 > 0
    · rw [if_pos h2, List.length_set]
    · rw [if_neg h2, List.length_set]
  · rw [if_neg h1]

theorem penalized_length (cfg : SamplerConfig) (logits : List ℚ)
    (toks : List ℕ) : (penalized cfg logits toks).length = logits.length := by
  unfold penalized
  split
  · exact applyRepeatPenalty_length _ _ _ _
  · rfl

theorem tempScaled_length (cfg : SamplerConfig) (l : List ℚ) :
    (tempScaled cfg l).length = l.length := by
  unfold tempScaled
  split
  · exact List.length_map _ _
  · rfl

theorem enumFrom_fst_spec (l : List ℚ) : ∀ (n : ℕ) (q : ℕ × ℚ),
    q ∈ l.enumFrom n → n ≤ q.1 ∧ q.1 - n < l.length ∧ q.2 = l.getD (q.1 - n) 0 := by
  induction l with
  | nil => intro n q h; simp [List.enumFrom] at h
  | cons x xs ih =>
    intro n q h
    rw [List.enumFrom] at h
    rcases List.mem_cons.mp h with h0 | h1
    · subst h0
      exact ⟨le_refl n, by simp, by simp⟩
    · obtain ⟨hq1, hq2, hq3⟩ := ih (n + 1) q h1
      refine ⟨by omega, by simp; omega, ?_⟩
      rw [hq3]
      have hs : q.1 - n = (q.1 - (n + 1)) + 1 := by omega
      rw [hs, List.getD_cons_succ]

theorem mem_enumFrom_self (l : List ℚ) : ∀ (n j : ℕ), j < l.length →
    (n + j, l.getD j 0) ∈ l.enumFrom n := by
  induction l with
  | nil => intro n j h; simp at h
  | cons x xs ih =>
    intro n j h
    cases j with
    | zero => rw [List.enumFrom]; exact List.mem_cons_self _ _
    | succ k =>
      rw [List.enumFrom]
      refine List.mem_cons_of_mem _ ?_
      have h2 := ih (n + 1) k (Nat.lt_of_succ_lt_succ h)
      have h3 : n + (k + 1) = n + 1 + k := by omega
      rw [List.getD_cons_succ, h3]
      exact h2

theorem enumFrom_pairwise_lt (l : List ℚ) :
    ∀ n, (l.enumFrom n).Pairwise (fun a b => a.1 < b.1) := by
  induction l with
  | nil => intro n; simp [List.enumFrom]
  | cons x xs ih =>
    intro n
    rw [List.enumFrom]
    refine List.Pairwise.cons ?_ (ih (n + 1))
    intro q hq
    have h1 := (enumFrom_fst_spec xs (n + 1) q hq).1
    show n < q.1
    omega

theorem amFold_mem : ∀ (ps : List (ℕ × ℚ)) (acc : ℕ × ℚ),
    amFold acc ps ∈ acc :: ps := by
  intro ps
  induction ps with
  | nil => intro acc; exact List.mem_cons_self _ _
  | cons p ps ih =>
    intro acc
    rw [amFold]
    by_cases hc : acc.2 > p.2
    · rw [if_pos hc]
      rcases List.mem_cons.mp (ih acc) with h1 | h2
      · rw [h1]; exact List.mem_cons_self _ _
      · exact List.mem_cons_of_mem _ (List.mem_cons_of_mem _ h2)
    · rw [if_neg hc]
      rcases List.mem_cons.mp (ih p) with h1 | h2
      · rw [h1]; exact List.mem_cons_of_mem _ (List.mem_cons_self _ _)
      · exact List.mem_cons_of_mem _ (List.mem_cons_of_mem _ h2)

theorem amFold_le : ∀ (ps : List (ℕ × ℚ)) (acc : ℕ × ℚ),
    acc.2 ≤ (amFold acc ps).2 ∧ ∀ q ∈ ps, q.2 ≤ (amFold acc ps).2 := by
  intro ps
  induction ps with
  | nil => intro acc; exact ⟨le_refl _, by simp⟩
  | cons p ps ih =>
    intro acc
    rw [amFold]
    by_cases hc : acc.2 > p.2
    · rw [if_pos hc]
      obtain ⟨h1, h2⟩ := ih acc
      refine ⟨h1, fun q hq => ?_⟩
      rcases List.mem_cons.mp hq with h3 | h4
      · rw [h3]; exact le_trans (le_of_lt hc) h1
      · exact h2 q h4
    · rw [if_neg hc]
      obtain ⟨h1, h2⟩ := ih p
      refine ⟨le_trans (le_of_not_lt hc) h1, fun q hq => ?_⟩
      rcases List.mem_cons.mp hq with h3 | h4
      · rw [h3]; exact h1
      · exact h2 q h4

theorem amFold_last_tie : ∀ (ps : List (ℕ × ℚ)) (acc : ℕ × ℚ),
    (∀ z ∈ ps, acc.1 < z.1) → ps.Pairwise (fun a b => a.1 < b.1) →
    ∀ q ∈ acc :: ps, q.2 = (amFold acc ps).2 → q.1 ≤ (amFold acc ps).1 := by
  intro ps
  induction ps with
  | nil =>
    intro acc _ _ q hq htie
    rcases List.mem_cons.mp hq with h1 | h2
    · rw [h1]
      exact le_refl _
    · simp at h2
  | cons p ps ih =>
    intro acc hlt hpw q hq htie
    rw [amFold] at htie ⊢
    by_cases hc : acc.2 > p.2
    · rw [if_pos hc] at htie ⊢
      have hps : ∀ z ∈ ps, acc.1 < z.1 :=
        fun z hz => hlt z (List.mem_cons_of_mem _ hz)
      have hpw' : ps.Pairwise (fun a b => a.1 < b.1) :=
        (List.pairwise_cons.mp hpw).2
      rcases List.mem_cons.mp hq with h1 | h1
      · exact ih acc hps hpw' q (h1 ▸ List.mem_cons_self _ _) htie
      rcases List.mem_cons.mp h1 with h2 | h2
      · exfalso
        have hle := (amFold_le ps acc).1
        rw [h2] at htie
        rw [htie] at hc
        exact absurd hle (not_le_of_lt hc)
      · exact ih acc hps hpw' q (List.mem_cons_of_mem _ h2) htie
    · rw [if_neg hc] at htie ⊢
      have hps : ∀ z ∈ ps, p.1 < z.1 := (List.pairwise_cons.mp hpw).1
      have hpw' : ps.Pairwise (fun a b => a.1 < b.1) :=
        (List.pairwise_cons.mp hpw).2
      rcases List.mem_cons.mp hq with h1 | h1
      · subst h1
        have hm := amFold_mem ps p
        have hlt2 : q.1 < (amFold p ps).1 := by
          rcases List.mem_cons.mp hm with h2 | h2
          · rw [h2]; exact hlt p (List.mem_cons_self _ _)
          · exact hlt _ (List.mem_cons_of_mem _ h2)
        exact le_of_lt hlt2
      · exact ih p hps hpw' q h1 htie

theorem argmax_cons_eq (values : List ℚ) (p : ℕ × ℚ) (ps : List (ℕ × ℚ))
    (henum : values.enum = p :: ps) : argmax values = (amFold p ps).1 := by
  unfold argmax
  rw [henum]

theorem argmax_spec (values : List ℚ) (h : values ≠ []) :
    argmax values < values.length ∧
    (∀ j, j < values.length →
      values.getD j 0 ≤ values.getD (argmax values) 0) ∧
    (∀ j, j < values.length →
      values.getD j 0 = values.getD (argmax values) 0 → j ≤ argmax values) := by
  have henum : values.enum = values.enumFrom 0 := rfl
  obtain ⟨p, ps, hcons⟩ : ∃ p ps, values.enum = p :: ps := by
    cases hv : values.enum with
    | nil =>
      exfalso
      have : values.enum.length = values.length := List.enum_length
      rw [hv] at this
      exact h (List.length_eq_zero.mp this.symm)
    | cons p ps => exact ⟨p, ps, rfl⟩
  have harg : argmax values = (amFold p ps).1 := argmax_cons_eq values p ps hcons
  have hmem : amFold p ps ∈ values.enumFrom 0 := by
    rw [← henum, hcons]; exact amFold_mem ps p
  obtain ⟨_, hres_lt, hres_val⟩ := enumFrom_fst_spec values 0 _ hmem
  simp only [Nat.sub_zero] at hres_lt hres_val
  have hmax : ∀ j, j < values.length →
      values.getD j 0 ≤ values.getD (argmax values) 0 := by
    intro j hj
    have hj_mem : (j, values.getD j 0) ∈ values.enumFrom 0 := by
      simpa using mem_enumFrom_self values 0 j hj
    rw [← henum, hcons] at hj_mem
    have hle := amFold_le ps p
    have : values.getD j 0 ≤ (amFold p ps).2 := by
      rcases List.mem_cons.mp hj_mem with h1 | h1
      · calc values.getD j 0 = p.2 := by rw [← h1]
          _ ≤ (amFold p ps).2 := hle.1
      · exact hle.2 _ h1
    rw [harg, ← hres_val]
    exact this
  refine ⟨by rw [harg]; exact hres_lt, hmax, ?_⟩
  intro j hj htie
  have hj_mem : (j, values.getD j 0) ∈ values.enumFrom 0 := by
    simpa using mem_enumFrom_self values 0 j hj
  rw [← henum, hcons] at hj_mem
  have hpw : (p :: ps).Pairwise (fun a b => a.1 < b.1) := by
    rw [← hcons, henum]; exact enumFrom_pairwise_lt values 0
  have hlast := amFold_last_tie ps p (List.pairwise_cons.mp hpw).1
    (List.pairwise_cons.mp hpw).2 (j, values.getD j 0) hj_mem
  rw [harg]
  apply hlast
  show values.getD j 0 = (amFold p ps).2
  rw [hres_val, ← harg]
  exact htie

theorem insertDesc_mem (x : ℕ × ℚ) : ∀ (l : List (ℕ × ℚ)) (q : ℕ × ℚ),
    q ∈ insertDesc x l → q = x ∨ q ∈ l := by
  intro l
  induction l with
  | nil => intro q hq; simp [insertDesc] at hq; exact Or.inl hq
  | cons y ys ih =>
    intro q hq
    rw [insertDesc] at hq
    by_cases hc : x.2 > y.2
    · rw [if_pos hc] at hq
      rcases List.mem_cons.mp hq with h1 | h1
      · exact Or.inl h1
      · exact Or.inr h1
    · rw [if_neg hc] at hq
      rcases List.mem_cons.mp hq with h1 | h1
      · exact Or.inr (h1 ▸ List.mem_cons_self _ _)
      · rcases ih q h1 with h2 | h2
        · exact Or.inl h2
        · exact Or.inr (List.mem_cons_of_mem _ h2)

theorem sortDesc_mem : ∀ (l : List (ℕ × ℚ)) (q : ℕ × ℚ),
    q ∈ sortDesc l → q ∈ l := by
  intro l
  induction l with
  | nil => intro q hq; simpa [sortDesc] using hq
  | cons x xs ih =>
    intro q hq
    rw [sortDesc] at hq
    rcases insertDesc_mem x (sortDesc xs) q hq with h1 | h1
    · exact h1 ▸ List.mem_cons_self _ _
    · exact List.mem_cons_of_mem _ (ih q h1)

theorem insertDesc_length (x : ℕ × ℚ) : ∀ (l : List (ℕ × ℚ)),
    (insertDesc x l).length = l.length + 1 := by
  intro l
  induction l with
  | nil => rfl
  | cons y ys ih =>
    rw [insertDesc]
    by_cases hc : x.2 > y.2
    · rw [if_pos hc]; rfl
    · rw [if_neg hc]
      simp only [List.length_cons, ih]

theorem sortDesc_length : ∀ (l : List (ℕ × ℚ)),
    (sortDesc l).length = l.length := by
  intro l
  induction l with
  | nil => rfl
  | cons x xs ih =>
    rw [sortDesc, insertDesc_length, ih, List.length_cons]

theorem softmaxed_length (fexp : ℚ → ℚ) (inds : List (ℕ × ℚ)) :
    (softmaxed fexp inds).length = inds.length := by
  unfold softmaxed
  simp

theorem softmaxed_fst (fexp : ℚ → ℚ) (inds : List (ℕ × ℚ)) (q : ℕ × ℚ)
    (hq : q ∈ softmaxed fexp inds) : ∃ p ∈ inds, q.1 = p.1 := by
  unfold softmaxed at hq
  simp only [List.mem_map] at hq
  obtain ⟨b, ⟨a, ha, rfl⟩, rfl⟩ := hq
  exact ⟨a, ha, rfl⟩

theorem topPCutoff_pos (p : ℚ) (c : ℚ) (l : List (ℕ × ℚ)) (h : l ≠ []) :
    0 < topPCutoff p c l := by
  cases l with
  | nil => exact absurd rfl h
  | cons x xs =>
    rw [topPCutoff]
    split
    · exact Nat.zero_lt_one
    · omega

theorem topPFilter_ne_nil (p : ℚ) (probs : List (ℕ × ℚ)) (h : probs ≠ []) :
    topPFilter p probs ≠ [] := by
  unfold topPFilter
  rw [← List.length_pos]
  simp only [List.length_map, List.length_take]
  have h1 := topPCutoff_pos p 0 probs h
  have h2 := List.length_pos.mpr h
  omega

theorem topPFilter_fst (p : ℚ) (probs : List (ℕ × ℚ)) (q : ℕ × ℚ)
    (hq : q ∈ topPFilter p probs) : ∃ x ∈ probs, q.1 = x.1 := by
  unfold topPFilter at hq
  simp only [List.mem_map] at hq
  obtain ⟨b, hb, rfl⟩ := hq
  exact ⟨b, List.mem_of_mem_take hb, rfl⟩

theorem sampleCandidates_spec (fexp : ℚ → ℚ) (cfg : SamplerConfig)
    (logits : List ℚ) (last_tokens : List ℕ) (h : logits ≠ []) :
    sampleCandidates fexp cfg logits last_tokens ≠ [] ∧
    ∀ q ∈ sampleCandidates fexp cfg logits last_tokens, q.1 < logits.length := by
  have hlen2 : (tempScaled cfg (penalized cfg logits last_tokens)).length
      = logits.length := by
    rw [tempScaled_length, penalized_length]
  have hpos : 0 < logits.length := List.length_pos.mpr h
  have hsortlen : (sortDesc (tempScaled cfg (penalized cfg logits last_tokens)).enum).length
      = logits.length := by
    rw [sortDesc_length, List.enum_length, hlen2]
  have htrunc_len : 0 < (sortedTrunc cfg (tempScaled cfg (penalized cfg logits last_tokens))).length := by
    unfold sortedTrunc topKCount
    simp only [List.length_take, hsortlen]
    split <;> omega
  have htrunc_fst : ∀ q ∈ sortedTrunc cfg (tempScaled cfg (penalized cfg logits last_tokens)),
      q.1 < logits.length := by
    intro q hq
    unfold sortedTrunc at hq
    have hmem := sortDesc_mem _ q (List.mem_of_mem_take hq)
    have := (enumFrom_fst_spec _ 0 q hmem).2.1
    simpa [hlen2] using this
  have hsoft_ne : softmaxed fexp (sortedTrunc cfg (tempScaled cfg (penalized cfg logits last_tokens))) ≠ [] := by
    rw [← List.length_pos, softmaxed_length]
    exact htrunc_len
  have hsoft_fst : ∀ q ∈ softmaxed fexp (sortedTrunc cfg (tempScaled cfg (penalized cfg logits last_tokens))),
      q.1 < logits.length := by
    intro q hq
    obtain ⟨a, ha, heq⟩ := softmaxed_fst fexp _ q hq
    rw [heq]
    exact htrunc_fst a ha
  constructor
  · show (if cfg.top_p < 1 then _ else _) ≠ []
    split
    · exact topPFilter_ne_nil _ _ hsoft_ne
    · exact hsoft_ne
  · intro q hq
    have hq2 : q ∈ (if cfg.top_p < 1 then
        topPFilter cfg.top_p (softmaxed fexp (sortedTrunc cfg (tempScaled cfg (penalized cfg logits last_tokens))))
      else softmaxed fexp (sortedTrunc cfg (tempScaled cfg (penalized cfg logits last_tokens)))) := hq
    split at hq2
    · obtain ⟨x, hx, heq⟩ := topPFilter_fst _ _ q hq2
      rw [heq]
      exact hsoft_fst x hx
    · exact hsoft_fst q hq2

theorem drawLoop_some_mem (r : ℚ) : ∀ (probs : List (ℕ × ℚ)) (c : ℚ) (i : ℕ),
    drawLoop r c probs = some i → ∃ q ∈ probs, q.1 = i := by
  intro probs
  induction probs with
  | nil => intro c i h; simp [drawLoop] at h
  | cons x xs ih =>
    intro c i h
    rw [drawLoop] at h
    split at h
    · exact ⟨x, List.mem_cons_self _ _, (Option.some_inj.mp h)⟩
    · obtain ⟨q, hq, hqi⟩ := ih (c + x.2) i h
      exact ⟨q, List.mem_cons_of_mem _ hq, hqi⟩

theorem getLast?_mem_of_some {α : Type} : ∀ (l : List α) (a : α),
    l.getLast? = some a → a ∈ l := by
  intro l
  induction l with
  | nil => intro a h; simp at h
  | cons x xs ih =>
    intro a h
    cases xs with
    | nil =>
      have hxa : x = a := by simpa using h
      subst hxa
      exact List.mem_cons_self _ _
    | cons y ys =>
      rw [List.getLast?_cons_cons] at h
      exact List.mem_cons_of_mem _ (ih a h)

theorem drawToken_lt (probs : List (ℕ × ℚ)) (r : ℚ) (N : ℕ) (h0 : 0 < N)
    (hf : ∀ q ∈ probs, q.1 < N) : drawToken probs r < N := by
  unfold drawToken
  cases hdl : drawLoop r 0 probs with
  | some i =>
    rw [Option.getD_some]
    obtain ⟨q, hq, hqi⟩ := drawLoop_some_mem r probs 0 i hdl
    exact hqi ▸ hf q hq
  | none =>
    rw [Option.getD_none]
    cases hlast : probs.getLast? with
    | none => exact h0
    | some q => exact hf q (getLast?_mem_of_some probs q hlast)

/-- **C7.** For every nonempty logits vector and every configuration,
`Sampler::sample` returns a token index inside `[0, logits.length)`, and
the candidate distribution left after top-k and top-p filtering is
nonempty.  `fexp` and `r` are the abstracted `f32::exp` and RNG draw. -/
theorem sample_in_range (fexp : ℚ → ℚ) (cfg : SamplerConfig) (logits : List ℚ)
    (last_tokens : List ℕ) (r : ℚ) (h : logits ≠ []) :
    sample fexp cfg logits last_tokens r < logits.length ∧
    sampleCandidates fexp cfg logits last_tokens ≠ [] := by
  have hlen2 : (tempScaled cfg (penalized cfg logits last_tokens)).length
      = logits.length := by
    rw [tempScaled_length, penalized_length]
  have hne2 : tempScaled cfg (penalized cfg logits last_tokens) ≠ [] := by
    rw [← List.length_pos, hlen2]
    exact List.length_pos.mpr h
  obtain ⟨hcne, hcfst⟩ := sampleCandidates_spec fexp cfg logits last_tokens h
  refine ⟨?_, hcne⟩
  unfold sample
  split
  · have := (argmax_spec _ hne2).1
    rwa [hlen2] at this
  · exact drawToken_lt _ r logits.length (List.length_pos.mpr h) hcfst

/-- Witness for C7 at a concrete nonempty logits vector. -/
theorem sample_in_range_witness :
    ([3, 1, 2] : List ℚ) ≠ [] ∧
    sample (fun x => x) greedyCfg [3, 1, 2] [0] 0 < 3 ∧
    sampleCandidates (fun x => x) greedyCfg [3, 1, 2] [0] ≠ [] := by
  have h := sample_in_range (fun x => x) greedyCfg [3, 1, 2] [0] 0 (by decide)
  exact ⟨by decide, h.1, h.2⟩

-- ── Claim C2 : greedy argmax tie-breaking ─────────────────────

/-- Counterexample to C2 as stated: at temperature 0 with logits `[1, 1]`
(a tie), the sampler returns index 1, not the first-occurrence index 0 —
Rust's `max_by` keeps the last of equally-maximal elements. -/
theorem sample_tie_counterexample :
    sample (fun x => x) greedyCfg [1, 1] [] 0 = 1 ∧
    sample (fun x => x) greedyCfg [1, 1] [] 0 ≠ 0 := by
  constructor <;> decide

/-- **C2 amended.** For every nonempty logits vector, when
`temperature ≤ 0` the sampler returns the argmax of the penalty-adjusted
logits, and ties in argmax are broken by the LAST occurrence: every index
attaining the maximum is `≤` the returned index (the returned index itself
attains the maximum). -/
theorem sample_greedy_is_last_argmax (fexp : ℚ → ℚ) (cfg : SamplerConfig)
    (logits : List ℚ) (last_tokens : List ℕ) (r : ℚ)
    (htemp : cfg.temperature ≤ 0) (h : logits ≠ []) :
    sample fexp cfg logits last_tokens r
      = argmax (penalized cfg logits last_tokens) ∧
    (∀ j, j < (penalized cfg logits last_tokens).length →
      (penalized cfg logits last_tokens).getD j 0 ≤
        (penalized cfg logits last_tokens).getD
          (argmax (penalized cfg logits last_tokens)) 0) ∧
    (∀ j, j < (penalized cfg logits last_tokens).length →
      (penalized cfg logits last_tokens).getD j 0 =
        (penalized cfg logits last_tokens).getD
          (argmax (penalized cfg logits last_tokens)) 0 →
      j ≤ argmax (penalized cfg logits last_tokens)) := by
  have hscale : tempScaled cfg (penalized cfg logits last_tokens)
      = penalized cfg logits last_tokens := by
    unfold tempScaled
    rw [if_neg]
    rintro ⟨h1, _⟩
    exact absurd (lt_of_lt_of_le h1 htemp) (lt_irrefl 0)
  have hpen_ne : penalized cfg logits last_tokens ≠ [] := by
    rw [← List.length_pos, penalized_length]
    exact List.length_pos.mpr h
  obtain ⟨_, ha2, ha3⟩ := argmax_spec _ hpen_ne
  refine ⟨?_, ha2, ha3⟩
  unfold sample
  rw [if_pos htemp, hscale]

/-- Witness for the amended C2 at the tied logits `[1, 1]`. -/
theorem sample_greedy_is_last_argmax_witness :
    greedyCfg.temperature ≤ 0 ∧ ([1, 1] : List ℚ) ≠ [] ∧
    sample (fun x => x) greedyCfg [1, 1] [] 0
      = argmax (penalized greedyCfg [1, 1] []) := by
  have h := sample_greedy_is_last_argmax (fun x => x) greedyCfg [1, 1] [] 0
    (by decide) (by decide)
  exact ⟨by decide, by decide, h.1⟩

-- ── Claim C9 : byte-escape tokens are not unescaped ───────────

/-- **C9.** Evaluation at the failing input: the id whose vocabulary entry
is the byte-escape `"<0x41>"` decodes to the six bytes of the literal
string `"<0x41>"` (`<`, `0`, `x`, `4`, `1`, `>`), NOT to the single byte
0x41 — `decode_token` returns vocabulary entries verbatim with no
byte-escape handling, contradicting the claim. -/
theorem decode_byte_escape_verbatim :
    decode byteEscTok [0] = [60, 48, 120, 52, 49, 62] ∧
    decode byteEscTok [0] ≠ [65] := by
  constructor <;> decide

-- ── Claim C4 : encode/decode round-trip fails ─────────────────

/-- **C4.** Evaluation at the failing input: for the tokenizer whose
vocabulary has a single-byte token for every byte 0x00–0xFF, the two-byte
UTF-8 string `"é"` (`[0xC3, 0xA9]`) does not round-trip: `encode` builds
each lookup key with `byte as char` (two UTF-8 bytes for bytes ≥ 0x80), so
both lookups miss, both bytes fall back to `pad_id = 0`, and decoding
returns `[0x00, 0x00]` — contradicting the claim. -/
theorem encode_decode_no_roundtrip :
    (∀ b, b < 256 → [b] ∈ byteVocabTok.vocab) ∧
    decode byteVocabTok (encode byteVocabTok [195, 169]) = [0, 0] ∧
    decode byteVocabTok (encode byteVocabTok [195, 169]) ≠ [195, 169] := by
  refine ⟨fun b hb => ?_, by decide, by decide⟩
  exact List.mem_map_of_mem _ (List.mem_range.mpr hb)

-- ── Claim C3 : model parameter defaults ───────────────────────

/-- Counterexample to C3 as stated: with every metadata key absent,
parameter construction succeeds and substitutes defaults for every key —
it cannot fail (`from_gguf` is total and returns `ModelParams`, not a
`Result`). -/
theorem from_gguf_empty_all_defaults :
    ModelParams.from_gguf ⟨[]⟩ =
      { vocab_size := 32000, dim := 2048, hidden_dim := 5632, n_layers := 22,
        n_heads := 32, n_kv_heads := 32, head_dim := 64, max_seq_len := 2048,
        rope_theta := 10000, rms_norm_eps := 1 / 100000 } := by
  rfl

/-- **C3 amended.** Every numeric key of `from_gguf` falls back to a
default when absent — construction never fails: `embedding_length` 2048,
`feed_forward_length` 5632, `block_count` 22, `attention.head_count` 32,
`attention.head_count_kv` the resolved `n_heads`, `context_length` 2048,
`vocab_size` the `tokenizer.ggml.tokens` array length and then 32000,
`rope.freq_base` 10000, `attention.layer_norm_rms_epsilon` 1e-5. -/
theorem from_gguf_defaults (g : GgufFile) :
    (g.get_u32 (g.architecture.getD "llama" ++ "." ++ "embedding_length") = none →
      (ModelParams.from_gguf g).dim = 2048) ∧
    (g.get_u32 (g.architecture.getD "llama" ++ "." ++ "feed_forward_length") = none →
      (ModelParams.from_gguf g).hidden_dim = 5632) ∧
    (g.get_u32 (g.architecture.getD "llama" ++ "." ++ "block_count") = none →
      (ModelParams.from_gguf g).n_layers = 22) ∧
    (g.get_u32 (g.architecture.getD "llama" ++ "." ++ "attention.head_count") = none →
      (ModelParams.from_gguf g).n_heads = 32) ∧
    (g.get_u32 (g.architecture.getD "llama" ++ "." ++ "attention.head_count_kv") = none →
      (ModelParams.from_gguf g).n_kv_heads = (ModelParams.from_gguf g).n_heads) ∧
    (g.get_u32 (g.architecture.getD "llama" ++ "." ++ "context_length") = none →
      (ModelParams.from_gguf g).max_seq_len = 2048) ∧
    (g.get_u32 (g.architecture.getD "llama" ++ "." ++ "vocab_size") = none →
      g.get "tokenizer.ggml.tokens" = none →
      (ModelParams.from_gguf g).vocab_size = 32000) ∧
    (g.get_f32 (g.architecture.getD "llama" ++ "." ++ "rope.freq_base") = none →
      (ModelParams.from_gguf g).rope_theta = 10000) ∧
    (g.get_f32 (g.architecture.getD "llama" ++ "." ++ "attention.layer_norm_rms_epsilon") = none →
      (ModelParams.from_gguf g).rms_norm_eps = 1 / 100000) := by
  refine ⟨fun h => ?_, fun h => ?_, fun h => ?_, fun h => ?_, fun h => ?_,
    fun h => ?_, fun h h2 => ?_, fun h => ?_, fun h => ?_⟩ <;>
    simp [ModelParams.from_gguf, *]

/-- Witness for the amended C3 at the empty metadata store. -/
theorem from_gguf_defaults_witness :
    (⟨[]⟩ : GgufFile).get_u32
      ((⟨[]⟩ : GgufFile).architecture.getD "llama" ++ "." ++ "embedding_length")
      = none ∧
    (ModelParams.from_gguf ⟨[]⟩).dim = 2048 :=
  ⟨rfl, (from_gguf_defaults ⟨[]⟩).1 rfl⟩

-- ── Claim C8 : RoPE at position 0 is the identity ─────────────

theorem set_getD_self : ∀ (v : List ℚ) (i : ℕ), v.set i (v.getD i 0) = v := by
  intro v
  induction v with
  | nil => intro i; rfl
  | cons x xs ih =>
    intro i
    cases i with
    | zero => rfl
    | succ k =>
      rw [List.getD_cons_succ, List.set_cons_succ, ih]

theorem foldl_id {α β : Type} (f : α → β → α) (hf : ∀ a b, f a b = a) :
    ∀ (L : List β) (a : α), L.foldl f a = a := by
  intro L
  induction L with
  | nil => intro a; rfl
  | cons b L ih => intro a; rw [List.foldl_cons, hf, ih]

/-- **C8.** RoPE applied at position 0 is the identity: for every vector of
even length `head_dim` and every `rope_theta`, every element is unchanged
pointwise within 1e-5 (here: exactly).  `cosf`/`sinf`/`powf` are the
abstracted `f32` trigonometry, constrained only by `cos 0 = 1`,
`sin 0 = 0`. -/
theorem apply_rope_pos_zero_identity (cosf sinf : ℚ → ℚ) (powf : ℚ → ℚ → ℚ)
    (vec : List ℚ) (head_dim : ℕ) (rope_theta : ℚ)
    (hcos : cosf 0 = 1) (hsin : sinf 0 = 0)
    (hlen : vec.length = head_dim) (heven : head_dim % 2 = 0) :
    ∀ k, k < vec.length →
      |(apply_rope cosf sinf powf vec 0 head_dim rope_theta).getD k 0 -
        vec.getD k 0| ≤ 1 / 100000 := by
  have key : apply_rope cosf sinf powf vec 0 head_dim rope_theta = vec := by
    unfold apply_rope
    apply foldl_id
    intro v i
    simp only [Nat.cast_zero, zero_mul, hcos, hsin, mul_one, mul_zero,
      sub_zero, zero_add]
    rw [set_getD_self, set_getD_self]
  intro k _
  rw [key, sub_self, abs_zero]
  norm_num

/-- Witness for C8 at a concrete vector of head dimension 4. -/
theorem apply_rope_pos_zero_identity_witness :
    (fun x : ℚ => if x = 0 then (1 : ℚ) else 0) 0 = 1 ∧
    (fun _ : ℚ => (0 : ℚ)) 0 = 0 ∧
    ([1, 2, 3, 4] : List ℚ).length = 4 ∧ 4 % 2 = 0 ∧
    ∀ k, k < ([1, 2, 3, 4] : List ℚ).length →
      |(apply_rope (fun x => if x = 0 then 1 else 0) (fun _ => 0)
          (fun _ _ => 1) [1, 2, 3, 4] 0 4 10000).getD k 0 -
        ([1, 2, 3, 4] : List ℚ).getD k 0| ≤ 1 / 100000 := by
  refine ⟨by norm_num, rfl, rfl, rfl, ?_⟩
  exact apply_rope_pos_zero_identity (fun x => if x = 0 then 1 else 0)
    (fun _ => 0) (fun _ _ => 1) [1, 2, 3, 4] 4 10000 (by norm_num) rfl rfl rfl

end Bizclaw
